import Mathlib

/-
  Verification of `multiprocessing_scheduler.py` (python_multiprocessing_scheduler).

  Shallow embedding of the scheduler `schedule_workers`, the worker wrapper
  `_proc_f` and the fallback backend `FakeProcess`.  The user function is
  modelled by the outcome of each of its invocations: for the pid-th item of
  `args_list`, after the `with_kwargs` unpacking of lines 119-123, running
  `function(*args, **kwargs)` either returns a value or raises an exception,
  in which case `traceback.format_tb` also renders a stack-trace text at the
  raise site.  `runs` lists those outcomes in submission order.

  Concurrency model: every spawned worker runs `_proc_f`, which always
  delivers exactly one envelope to `results_q`; the only nondeterminism
  visible to the coordinator is which of the delivered envelopes
  `results_q.get()` returns at each of its calls, since completion order
  among workers is timing dependent.  An `oracle : Nat → Nat` resolves the
  `t`-th `get()` of a call to the index `oracle t mod (number of available
  envelopes)` into the queue (kept in spawn order).  The `FakeProcess`
  fallback runs each job inline at `start()`, so envelopes enter the FIFO
  queue in spawn order and `get()` always returns the oldest one: the
  constant-0 oracle.
-/

namespace MPScheduler

/-- A Python exception object, as far as this code manipulates it: an
    identifying payload `val` (type and message) and the `args` tuple,
    whose entries have type `σ`; `schedule_workers` appends the rendered
    stack-trace text (also a `σ`) to `args` before re-raising. -/
structure PyExc (ε σ : Type) where
  val : ε
  args : List σ
deriving DecidableEq

/-- Outcome of one invocation of the user function on one job's unpacked
    `(args, kwargs)`: either a returned value, or a raised exception paired
    with the stack-trace text rendered by `traceback.format_tb` at the
    raise site (`_proc_f`, lines 59-60). -/
abbrev JobRun (α ε σ : Type) := Except (PyExc ε σ × σ) α

/-- The `retdict` envelope built by `_proc_f` (line 54):
    `{'pid': pid, 'exception': None, 'result': None}`, with `exception`
    holding the `[e, stacktrace]` pair on failure and `result` the return
    value on success. -/
structure Envelope (α ε σ : Type) where
  pid : Nat
  exception : Option (PyExc ε σ × σ)
  result : Option α
deriving DecidableEq

/-- `_proc_f` (lines 53-63): run the function; on return store the value in
    `result`, on a raised exception store `[e, stacktrace]` in `exception`;
    in both cases deliver exactly one envelope (the `finally` block).
    `run` is the outcome of `function(*args, **kwargs)` for this job. -/
def proc_f (run : JobRun α ε σ) (pid : Nat) : Envelope α ε σ :=
  match run with
  | .ok v => { pid := pid, exception := none, result := some v }
  | .error (e, stacktrace) => { pid := pid, exception := some (e, stacktrace), result := none }

/-- The coordinator state of one `schedule_workers` call, plus ghost fields
    recording observable events.
    `processes` is the insertion-ordered key list of the `processes` dict
    (the value attached to a pid is its process handle, which carries no
    further data here).  `queue` holds the envelopes delivered by spawned
    workers and not yet returned by `results_q.get()`, in spawn order.
    `results` is the aggregate result list.
    Ghost instrumentation: `spawnCount` counts `new_process` calls,
    `terminated` records every pid whose handle received a `terminate()`
    call (in call order), `maxActive` is the largest `len(processes)` ever
    reached, and `raisedBy` is the pid whose failure envelope was re-raised,
    if any. -/
structure SchedState (α ε σ : Type) where
  processes : List Nat
  queue : List (Envelope α ε σ)
  results : List α
  spawnCount : Nat
  terminated : List Nat
  maxActive : Nat
  raisedBy : Option Nat
deriving DecidableEq

/-- The state at entry of `schedule_workers` (lines 93-95): empty dict,
    empty queue, empty result list. -/
def initState : SchedState α ε σ :=
  { processes := [], queue := [], results := [], spawnCount := 0,
    terminated := [], maxActive := 0, raisedBy := none }

/-- `new_process` (lines 97-100): spawn a worker for job `pid`.  The worker
    runs `_proc_f`, whose envelope becomes available for `results_q.get()`;
    the handle is recorded under key `pid` in `processes`. -/
def new_process (run : JobRun α ε σ) (pid : Nat) (st : SchedState α ε σ) :
    SchedState α ε σ :=
  { st with
    queue := st.queue ++ [proc_f run pid]
    processes := st.processes ++ [pid]
    spawnCount := st.spawnCount + 1
    maxActive := max st.maxActive (st.processes.length + 1) }

/-- Outcome of one `collect_result` call: the loop continues with an updated
    state, or the call is terminal because it re-raised a worker exception
    (line 112), because `results_q.get()` blocks forever on an empty queue,
    or because the `processes[result['pid']]` access raised `KeyError`. -/
inductive CollectOut (α ε σ : Type) where
  | cont (st : SchedState α ε σ)
  | raised (e : PyExc ε σ) (st : SchedState α ε σ)
  | blocked (st : SchedState α ε σ)
  | keyError (pid : Nat) (st : SchedState α ε σ)
deriving DecidableEq

/-- The epilogue of `collect_result` (lines 114-116):
    `processes[result['pid']].join()`, `.terminate()`, then
    `del processes[result['pid']]`.  A missing key raises `KeyError`. -/
def finishPid (pid : Nat) (st : SchedState α ε σ) : CollectOut α ε σ :=
  if pid ∈ st.processes then
    .cont { st with processes := st.processes.erase pid
                    terminated := st.terminated ++ [pid] }
  else
    .keyError pid st

/-- The body of `collect_result` once `results_q.get()` has returned
    `result` (lines 104-116): if `result['exception']` is unset, append
    `result['result']` to `results` (for envelopes built by `_proc_f` the
    success branch always holds a value); otherwise, when
    `forward_exceptions` is set, call `terminate()` on every handle in
    `processes` (in dict order), append the stack trace to the exception's
    args and re-raise it — the epilogue does not run.  In the remaining
    cases run the epilogue on the envelope's own pid. -/
def collectEnv (fwd : Bool) (result : Envelope α ε σ) (st : SchedState α ε σ) :
    CollectOut α ε σ :=
  match result.exception with
  | none => finishPid result.pid { st with results := st.results ++ result.result.toList }
  | some (e, stacktrace) =>
    if fwd then
      .raised { e with args := e.args ++ [stacktrace] }
        { st with terminated := st.terminated ++ st.processes
                  raisedBy := some result.pid }
    else
      finishPid result.pid st

/-- `collect_result` (lines 102-116).  `results_q.get()` blocks until an
    envelope is available and may return the envelope of any spawned,
    uncollected worker; `choice` resolves which one.  The returned envelope
    leaves the queue and `collectEnv` dispatches on it. -/
def collect_result (fwd : Bool) (choice : Nat) (st : SchedState α ε σ) :
    CollectOut α ε σ :=
  if hq : st.queue.length = 0 then .blocked st
  else
    collectEnv fwd
      (st.queue.get ⟨choice % st.queue.length, Nat.mod_lt _ (Nat.pos_of_ne_zero hq)⟩)
      { st with queue := st.queue.eraseIdx (choice % st.queue.length) }

/-- Final outcome of `schedule_workers`: the returned list (with the final
    state), a re-raised worker exception, an everlasting block inside
    `results_q.get()`, or a `KeyError` on the `processes` dict. -/
inductive SchedResult (α ε σ : Type) where
  | ok (results : List α) (st : SchedState α ε σ)
  | raised (e : PyExc ε σ) (st : SchedState α ε σ)
  | deadlock (st : SchedState α ε σ)
  | keyError (pid : Nat) (st : SchedState α ε σ)
deriving DecidableEq

/-- Outcome of the submission loop: a terminal result propagated out of
    `collect_result`, or the state handed to the drain loop together with
    the next `get()` index. -/
inductive FillOut (α ε σ : Type) where
  | toDrain (t : Nat) (st : SchedState α ε σ)
  | terminal (r : SchedResult α ε σ)
deriving DecidableEq

/-- The submission loop of `schedule_workers` (lines 118-128): for each job,
    in submission order (`pid` is the `enumerate` index), if the window is
    full (`len(processes) >= max_processes`) first collect one result, then
    spawn the job's worker.  `max_processes` is an `Int`: Python accepts any
    integer there and only ever compares it with `len(processes)`. -/
def fill (fwd : Bool) (maxp : Int) (oracle : Nat → Nat) :
    Nat → Nat → List (JobRun α ε σ) → SchedState α ε σ → FillOut α ε σ
  | t, _, [], st => .toDrain t st
  | t, pid, run :: rest, st =>
    if (st.processes.length : Int) ≥ maxp then
      match collect_result fwd (oracle t) st with
      | .cont st' => fill fwd maxp oracle (t + 1) (pid + 1) rest (new_process run pid st')
      | .raised e st' => .terminal (.raised e st')
      | .blocked st' => .terminal (.deadlock st')
      | .keyError p st' => .terminal (.keyError p st')
    else
      fill fwd maxp oracle t (pid + 1) rest (new_process run pid st)

/-- The drain loop of `schedule_workers` (lines 130-133):
    `while len(processes) > 0: collect_result()`, then `return results`.
    Every continuing `collect_result` removes exactly one `processes` entry
    (`collect_result_cont_length`), so the loop runs exactly
    `len(processes)` times; `fuel` is initialized to that number by
    `schedule_workers` and the fuel-exhausted branch is unreachable. -/
def drainLoop (fwd : Bool) (oracle : Nat → Nat) :
    Nat → Nat → SchedState α ε σ → SchedResult α ε σ
  | _, 0, st =>
    if st.processes.length > 0 then .deadlock st else .ok st.results st
  | t, fuel' + 1, st =>
    if st.processes.length > 0 then
      match collect_result fwd (oracle t) st with
      | .cont st' => drainLoop fwd oracle (t + 1) fuel' st'
      | .raised e st' => .raised e st'
      | .blocked st' => .deadlock st'
      | .keyError p st' => .keyError p st'
    else
      .ok st.results st

/-- `schedule_workers` (lines 66-133): run the submission loop over the job
    outcomes, then drain the remaining workers and return the aggregate
    list.  `runs` abstracts `function`, `args_list` and `with_kwargs`: its
    pid-th entry is the outcome of `function(*args, **kwargs)` on the pid-th
    unpacked item of `args_list` (lines 118-123).  The source defaults are
    `forward_exceptions = true` and `max_processes = cpu_count()`. -/
def schedule_workers (fwd : Bool) (maxp : Int) (oracle : Nat → Nat)
    (runs : List (JobRun α ε σ)) : SchedResult α ε σ :=
  match fill fwd maxp oracle 0 0 runs initState with
  | .toDrain t st => drainLoop fwd oracle t st.processes.length st
  | .terminal r => r

/-- `schedule_workers` with `Process = FakeProcess` (lines 21-38, selected
    when `USE_MULTIPROCESSING` is false): `FakeProcess.start()` calls the
    target inline (line 32), so `_proc_f` has already put its envelope on
    the FIFO queue when `start()` returns, envelopes sit in the queue in
    spawn order, and every `results_q.get()` returns the oldest available
    envelope — the constant-0 oracle.  `terminate()` and `join()` are no-ops
    (lines 34-38). -/
def schedule_workers_fake (fwd : Bool) (maxp : Int)
    (runs : List (JobRun α ε σ)) : SchedResult α ε σ :=
  schedule_workers fwd maxp (fun _ => 0) runs

/-- The success values among a list of job outcomes, in submission order. -/
def okVals (runs : List (JobRun α ε σ)) : List α :=
  runs.filterMap (fun r => r.toOption)

/-- The failure payload of a job outcome, as `_proc_f` stores it. -/
def failPayload : JobRun α ε σ → Option (PyExc ε σ × σ)
  | .ok _ => none
  | .error p => some p

/-- The pids of the envelopes currently available on the queue. -/
def queuePids (st : SchedState α ε σ) : List Nat :=
  st.queue.map (fun env => env.pid)

/-- The four observable completion kinds of a `schedule_workers` call. -/
inductive SchedKind where
  | ok | raised | deadlock | keyError
deriving DecidableEq

/-- The completion kind of an outcome. -/
def SchedResult.kind : SchedResult α ε σ → SchedKind
  | .ok _ _ => .ok
  | .raised _ _ => .raised
  | .deadlock _ => .deadlock
  | .keyError _ _ => .keyError

/-- The coordinator state at the moment the call completed. -/
def SchedResult.final : SchedResult α ε σ → SchedState α ε σ
  | .ok _ st => st
  | .raised _ st => st
  | .deadlock st => st
  | .keyError _ st => st

/-- The returned list, when the call returned one. -/
def SchedResult.okResults : SchedResult α ε σ → Option (List α)
  | .ok rs _ => some rs
  | _ => none

/-- The multiset of returned success payloads, when the call returned. -/
def SchedResult.okMultiset (r : SchedResult α ε σ) : Option (Multiset α) :=
  r.okResults.map (fun l => (l : Multiset α))

/-- Coordinator invariant, relative to the full list `runs` of job outcomes
    and the number `pid` of jobs submitted so far: available envelopes and
    active handles carry the same pids (one envelope per active worker),
    pids are unique and below the submission counter, every envelope is the
    one `_proc_f` built for its job, the collected successes plus the
    pending ones are exactly the successes of the submitted jobs, and (when
    forwarding) every submitted failing job still has its envelope pending.
    The window bound on `len(processes)` rides along for limits ≥ 1. -/
structure Inv (fwd : Bool) (maxp : Int) (runs : List (JobRun α ε σ)) (pid : Nat)
    (st : SchedState α ε σ) : Prop where
  perm : List.Perm (queuePids st) st.processes
  nodup : st.processes.Nodup
  bound : ∀ p ∈ st.processes, p < pid
  envs : ∀ env ∈ st.queue, ∃ h : env.pid < runs.length,
      env.pid < pid ∧ env = proc_f runs[env.pid] env.pid
  acct : List.Perm (st.results ++ st.queue.filterMap (fun env => env.result))
      (okVals (runs.take pid))
  fails : fwd = true → ∀ i, ∀ h : i < runs.length, i < pid →
      (runs[i]).isOk = false → ∃ env ∈ st.queue, env.pid = i
  maxA : 1 ≤ maxp → (st.maxActive : Int) ≤ maxp ∧ (st.processes.length : Int) ≤ maxp

theorem Inv.queue_length_eq {fwd : Bool} {maxp : Int} {runs : List (JobRun α ε σ)}
    {pid : Nat} {st : SchedState α ε σ} (hInv : Inv fwd maxp runs pid st) :
    st.queue.length = st.processes.length := by
  have h := hInv.perm.length_eq
  simpa [queuePids] using h

theorem collect_result_eq (fwd : Bool) (choice : Nat) (st : SchedState α ε σ)
    (hq : st.queue.length ≠ 0) :
    ∃ hk : choice % st.queue.length < st.queue.length,
      collect_result fwd choice st =
        collectEnv fwd (st.queue.get ⟨choice % st.queue.length, hk⟩)
          { st with queue := st.queue.eraseIdx (choice % st.queue.length) } := by
  refine ⟨Nat.mod_lt _ (Nat.pos_of_ne_zero hq), ?_⟩
  simp [collect_result, hq]

theorem queue_split (q : List (Envelope α ε σ)) (k : Nat) (hk : k < q.length) :
    q = q.take k ++ q.get ⟨k, hk⟩ :: q.drop (k + 1) ∧
      q.eraseIdx k = q.take k ++ q.drop (k + 1) := by
  constructor
  · rw [List.get_eq_getElem, ← List.drop_eq_getElem_cons hk, List.take_append_drop]
  · exact List.eraseIdx_eq_take_drop_succ q k

theorem collectEnv_success (fwd : Bool) (env : Envelope α ε σ) (st : SchedState α ε σ)
    (v : α) (hexc : env.exception = none) (hres : env.result = some v)
    (hmem : env.pid ∈ st.processes) :
    collectEnv fwd env st = .cont
      { st with processes := st.processes.erase env.pid
                results := st.results ++ [v]
                terminated := st.terminated ++ [env.pid] } := by
  unfold collectEnv
  rw [hexc, hres]
  simp [finishPid, hmem]

theorem collectEnv_raise (env : Envelope α ε σ) (st : SchedState α ε σ)
    (exc : PyExc ε σ) (tb : σ) (hexc : env.exception = some (exc, tb)) :
    collectEnv true env st = .raised { val := exc.val, args := exc.args ++ [tb] }
      { st with terminated := st.terminated ++ st.processes
                raisedBy := some env.pid } := by
  unfold collectEnv
  rw [hexc]
  rfl

theorem collectEnv_mask (env : Envelope α ε σ) (st : SchedState α ε σ)
    (exc : PyExc ε σ) (tb : σ) (hexc : env.exception = some (exc, tb))
    (hmem : env.pid ∈ st.processes) :
    collectEnv false env st = .cont
      { st with processes := st.processes.erase env.pid
                terminated := st.terminated ++ [env.pid] } := by
  unfold collectEnv
  rw [hexc]
  simp [finishPid, hmem]


/-- One `collect_result` call on a state with at least one active worker:
    either the loop continues, the invariant is preserved and exactly one
    worker was retired, or (forwarding only) a failing job's exception is
    re-raised with its stack trace appended, every active handle — the
    reporter's included — got a `terminate()` call, and the reporter is
    still in the active set. -/
theorem collect_step {fwd : Bool} {maxp : Int} {runs : List (JobRun α ε σ)} {pid : Nat}
    {st : SchedState α ε σ} (hInv : Inv fwd maxp runs pid st) (c : Nat)
    (hne : st.processes ≠ []) :
    (∃ st', collect_result fwd c st = .cont st' ∧ Inv fwd maxp runs pid st' ∧
        st'.processes.length + 1 = st.processes.length ∧
        st'.spawnCount = st.spawnCount ∧ st'.maxActive = st.maxActive) ∨
    (∃ e st', collect_result fwd c st = .raised e st' ∧ fwd = true ∧
        st'.maxActive = st.maxActive ∧ st'.processes = st.processes ∧
        (∃ i, ∃ h : i < runs.length, i < pid ∧
          (∃ exc tb, runs[i] = Except.error (exc, tb) ∧
            e = { val := exc.val, args := exc.args ++ [tb] }) ∧
          st'.raisedBy = some i ∧ i ∈ st'.processes) ∧
        (∀ q ∈ st'.processes, q ∈ st'.terminated)) := by
  have hqlen : st.queue.length ≠ 0 := by
    rw [hInv.queue_length_eq]
    exact Nat.pos_iff_ne_zero.mp (List.length_pos.mpr hne)
  obtain ⟨hk, hceq⟩ := collect_result_eq fwd c st hqlen
  obtain ⟨hsplit, herase⟩ := queue_split st.queue (c % st.queue.length) hk
  have hmem : st.queue.get ⟨c % st.queue.length, hk⟩ ∈ st.queue := List.get_mem _ _ _
  obtain ⟨hlt, hltpid, henv⟩ := hInv.envs _ hmem
  have hpidmem : (st.queue.get ⟨c % st.queue.length, hk⟩).pid ∈ st.processes :=
    hInv.perm.mem_iff.mp (List.mem_map_of_mem _ hmem)
  have hlenerase : (st.processes.erase
      (st.queue.get ⟨c % st.queue.length, hk⟩).pid).length + 1 = st.processes.length := by
    rw [List.length_erase_of_mem hpidmem]
    have := List.length_pos.mpr hne
    omega
  have hkq : c % st.queue.length < (queuePids st).length := by
    simpa [queuePids] using hk
  have hpermerase : List.Perm
      ((st.queue.eraseIdx (c % st.queue.length)).map (fun env => env.pid))
      (st.processes.erase (st.queue.get ⟨c % st.queue.length, hk⟩).pid) := by
    have hmapidx : (st.queue.eraseIdx (c % st.queue.length)).map (fun env => env.pid) =
        (queuePids st).eraseIdx (c % st.queue.length) := by
      unfold queuePids
      rw [List.eraseIdx_eq_take_drop_succ, List.eraseIdx_eq_take_drop_succ,
        List.map_append, List.map_take, List.map_drop]
    have hgetpid : (queuePids st).get ⟨c % st.queue.length, hkq⟩ =
        (st.queue.get ⟨c % st.queue.length, hk⟩).pid := by
      simp [queuePids]
    have h3 := (List.erase_getElem hkq).symm
    rw [List.get_eq_getElem] at hgetpid
    rw [hgetpid] at h3
    rw [hmapidx]
    exact h3.trans (hInv.perm.erase _)
  have hsub : ∀ x ∈ st.queue.eraseIdx (c % st.queue.length), x ∈ st.queue :=
    fun x hx => List.mem_of_mem_eraseIdx hx
  cases hrun : runs[(st.queue.get ⟨c % st.queue.length, hk⟩).pid] with
  | ok v =>
    have hexc : (st.queue.get ⟨c % st.queue.length, hk⟩).exception = none := by
      rw [henv, hrun]; rfl
    have hres : (st.queue.get ⟨c % st.queue.length, hk⟩).result = some v := by
      rw [henv, hrun]; rfl
    have hceq2 := hceq.trans (collectEnv_success fwd _ _ v hexc hres hpidmem)
    refine Or.inl ⟨_, hceq2, ?_, hlenerase, rfl, rfl⟩
    refine ⟨?_, hInv.nodup.erase _, ?_, ?_, ?_, ?_, ?_⟩
    · simpa [queuePids] using hpermerase
    · exact fun p hp => hInv.bound p (List.mem_of_mem_erase hp)
    · exact fun env2 hmem2 => hInv.envs env2 (hsub env2 hmem2)
    · -- accounting: the collected success value moves from the queue to results
      have hacct := hInv.acct
      rw [hsplit, List.filterMap_append] at hacct
      simp only [List.filterMap_cons, hres] at hacct
      show List.Perm ((st.results ++ [v]) ++
        (st.queue.eraseIdx (c % st.queue.length)).filterMap (fun env => env.result)) _
      rw [herase, List.filterMap_append]
      have h5 : List.Perm
          ((st.queue.take (c % st.queue.length)).filterMap (fun env => env.result) ++
            v :: (st.queue.drop (c % st.queue.length + 1)).filterMap (fun env => env.result))
          (v :: ((st.queue.take (c % st.queue.length)).filterMap (fun env => env.result) ++
            (st.queue.drop (c % st.queue.length + 1)).filterMap (fun env => env.result))) :=
        List.perm_middle
      have h6 : (st.results ++ [v]) ++
          ((st.queue.take (c % st.queue.length)).filterMap (fun env => env.result) ++
            (st.queue.drop (c % st.queue.length + 1)).filterMap (fun env => env.result)) =
          st.results ++ (v ::
            ((st.queue.take (c % st.queue.length)).filterMap (fun env => env.result) ++
            (st.queue.drop (c % st.queue.length + 1)).filterMap (fun env => env.result))) := by
        simp
      rw [h6]
      exact (List.Perm.append_left st.results h5.symm).trans hacct
    · -- pending failures stay pending: the removed envelope was a success
      intro hfwd i hilen hipid hierr
      obtain ⟨env2, henv2mem, henv2pid⟩ := hInv.fails hfwd i hilen hipid hierr
      refine ⟨env2, ?_, henv2pid⟩
      rw [hsplit] at henv2mem
      show env2 ∈ st.queue.eraseIdx (c % st.queue.length)
      rw [herase]
      rcases List.mem_append.mp henv2mem with h | h
      · exact List.mem_append_left _ h
      · rcases List.mem_cons.mp h with h | h
        · exfalso
          have hpid_i : (st.queue.get ⟨c % st.queue.length, hk⟩).pid = i := by
            rw [← h]; exact henv2pid
          have hok : (runs[i]).isOk = true := by
            simp only [← hpid_i]
            rw [hrun]
            rfl
          rw [hok] at hierr
          exact Bool.noConfusion hierr
        · exact List.mem_append_right _ h
    · intro h1p
      obtain ⟨hm, hl⟩ := hInv.maxA h1p
      refine ⟨hm, ?_⟩
      show ((st.processes.erase (st.queue.get ⟨c % st.queue.length, hk⟩).pid).length : Int) ≤ maxp
      omega
  | error p =>
    obtain ⟨exc, tb⟩ := p
    have hexc : (st.queue.get ⟨c % st.queue.length, hk⟩).exception = some (exc, tb) := by
      rw [henv, hrun]; rfl
    have hres : (st.queue.get ⟨c % st.queue.length, hk⟩).result = none := by
      rw [henv, hrun]; rfl
    cases fwd with
    | true =>
      have hceq2 := hceq.trans (collectEnv_raise _ _ exc tb hexc)
      refine Or.inr ⟨_, _, hceq2, rfl, rfl, rfl, ?_, ?_⟩
      · exact ⟨(st.queue.get ⟨c % st.queue.length, hk⟩).pid, hlt, hltpid,
          ⟨exc, tb, hrun, rfl⟩, rfl, hpidmem⟩
      · exact fun q hq => List.mem_append_right _ hq
    | false =>
      have hceq2 := hceq.trans (collectEnv_mask _ _ exc tb hexc hpidmem)
      refine Or.inl ⟨_, hceq2, ?_, hlenerase, rfl, rfl⟩
      refine ⟨?_, hInv.nodup.erase _, ?_, ?_, ?_, ?_, ?_⟩
      · simpa [queuePids] using hpermerase
      · exact fun p hp => hInv.bound p (List.mem_of_mem_erase hp)
      · exact fun env2 hmem2 => hInv.envs env2 (hsub env2 hmem2)
      · -- accounting unchanged: the dropped envelope carried no success value
        have hacct := hInv.acct
        rw [hsplit, List.filterMap_append] at hacct
        simp only [List.filterMap_cons, hres] at hacct
        show List.Perm (st.results ++
          (st.queue.eraseIdx (c % st.queue.length)).filterMap (fun env => env.result)) _
        rw [herase, List.filterMap_append]
        exact hacct
      · exact fun hfwd => Bool.noConfusion hfwd
      · intro h1p
        obtain ⟨hm, hl⟩ := hInv.maxA h1p
        refine ⟨hm, ?_⟩
        show ((st.processes.erase (st.queue.get ⟨c % st.queue.length, hk⟩).pid).length : Int) ≤ maxp
        omega

theorem proc_f_pid (run : JobRun α ε σ) (p : Nat) : (proc_f run p).pid = p := by
  cases run with
  | ok v => rfl
  | error q => obtain ⟨e, t⟩ := q; rfl

theorem proc_f_result (run : JobRun α ε σ) (p : Nat) :
    (proc_f run p).result = run.toOption := by
  cases run with
  | ok v => rfl
  | error q => obtain ⟨e, t⟩ := q; rfl

theorem proc_f_exception (run : JobRun α ε σ) (p : Nat) :
    (proc_f run p).exception = failPayload run := by
  cases run with
  | ok v => rfl
  | error q => obtain ⟨e, t⟩ := q; rfl

/-- `new_process` preserves the invariant when the spawned job is the pid-th
    of `runs` and the window still has room for one more worker. -/
theorem spawn_step {fwd : Bool} {maxp : Int} {runs : List (JobRun α ε σ)} {pid : Nat}
    {st : SchedState α ε σ} (hInv : Inv fwd maxp runs pid st)
    (hpid : pid < runs.length)
    (hroom : 1 ≤ maxp → (st.processes.length : Int) + 1 ≤ maxp) :
    Inv fwd maxp runs (pid + 1) (new_process runs[pid] pid st) := by
  have hnotmem : pid ∉ st.processes := fun hmem =>
    Nat.lt_irrefl pid (hInv.bound pid hmem)
  constructor
  · show List.Perm ((st.queue ++ [proc_f runs[pid] pid]).map (fun env => env.pid))
      (st.processes ++ [pid])
    rw [List.map_append]
    have hone : ([proc_f runs[pid] pid]).map (fun env => env.pid) = [pid] := by
      simp [proc_f_pid]
    rw [hone]
    exact hInv.perm.append_right [pid]
  · show (st.processes ++ [pid]).Nodup
    rw [List.nodup_append]
    refine ⟨hInv.nodup, List.nodup_singleton pid, ?_⟩
    intro a ha hb
    rw [List.mem_singleton] at hb
    subst hb
    exact hnotmem ha
  · intro p hp
    rcases List.mem_append.mp hp with h | h
    · exact Nat.lt_succ_of_lt (hInv.bound p h)
    · rw [List.mem_singleton] at h
      subst h
      exact Nat.lt_succ_self p
  · intro env hmem
    rcases List.mem_append.mp hmem with h | h
    · obtain ⟨h1, h2, h3⟩ := hInv.envs env h
      exact ⟨h1, Nat.lt_succ_of_lt h2, h3⟩
    · rw [List.mem_singleton] at h
      subst h
      refine ⟨by rw [proc_f_pid]; exact hpid, ?_, ?_⟩
      · rw [proc_f_pid]; exact Nat.lt_succ_self pid
      · have hp2 : (proc_f runs[pid] pid).pid = pid := proc_f_pid _ _
        simp only [hp2]
  · show List.Perm (st.results ++ (st.queue ++ [proc_f runs[pid] pid]).filterMap
      (fun env => env.result)) (okVals (runs.take (pid + 1)))
    rw [List.filterMap_append, List.take_succ]
    unfold okVals
    rw [List.filterMap_append]
    have hgx : runs[pid]? = some runs[pid] := List.getElem?_eq_getElem hpid
    have hx : ((runs[pid]?).toList).filterMap (fun r => r.toOption) =
        ([proc_f runs[pid] pid]).filterMap (fun env => env.result) := by
      rw [hgx]
      cases hx2 : runs[pid] with
      | ok v => simp [proc_f, Except.toOption]
      | error q => obtain ⟨e, t⟩ := q; simp [proc_f, Except.toOption]
    rw [← hx, ← List.append_assoc]
    exact List.Perm.append_right _ hInv.acct
  · intro hfwd i hilen hipid hierr
    rcases Nat.lt_succ_iff_lt_or_eq.mp hipid with h | h
    · obtain ⟨env2, hm2, hp2⟩ := hInv.fails hfwd i hilen h hierr
      exact ⟨env2, List.mem_append_left _ hm2, hp2⟩
    · subst h
      refine ⟨proc_f runs[i] i, List.mem_append_right _ (List.mem_singleton_self _),
        proc_f_pid _ _⟩
  · intro h1p
    obtain ⟨hm, hl⟩ := hInv.maxA h1p
    have hr := hroom h1p
    constructor
    · show ((max st.maxActive (st.processes.length + 1) : Nat) : Int) ≤ maxp
      rw [Nat.cast_max]
      refine max_le hm ?_
      omega
    · show (((st.processes ++ [pid]).length : Nat) : Int) ≤ maxp
      rw [List.length_append, List.length_singleton]
      omega

/-- What holds of a raised outcome: the propagated error is a failing job's
    exception with that job's stack-trace text appended to its args, the
    reporting worker is recorded and still sits in the active set, and every
    pid of the active set — the reporter included — received a `terminate()`
    call. -/
def RaisedInfo (runs : List (JobRun α ε σ)) (e : PyExc ε σ)
    (st : SchedState α ε σ) : Prop :=
  (∃ i, ∃ h : i < runs.length, ∃ exc tb,
      runs[i] = Except.error (exc, tb) ∧
      e = { val := exc.val, args := exc.args ++ [tb] } ∧
      st.raisedBy = some i ∧ i ∈ st.processes) ∧
  (∀ q ∈ st.processes, q ∈ st.terminated)

/-- The invariant holds on the entry state. -/
theorem Inv_init (fwd : Bool) (maxp : Int) (runs : List (JobRun α ε σ)) :
    Inv fwd maxp runs 0 (initState (α := α) (ε := ε) (σ := σ)) := by
  constructor
  · exact List.Perm.refl _
  · exact List.nodup_nil
  · intro p hp
    exact absurd hp (List.not_mem_nil p)
  · intro env hmem
    exact absurd hmem (List.not_mem_nil env)
  · simp [initState, okVals]
  · intro _ i _ hi _
    exact absurd hi (Nat.not_lt_zero i)
  · intro h1p
    constructor <;> simp [initState] <;> omega

/-- Master lemma for the submission loop under a positive limit: it either
    hands the drain loop a state satisfying the invariant with every job
    submitted, or stops early on a re-raised worker failure. -/
theorem fill_master {fwd : Bool} {maxp : Int} (oracle : Nat → Nat)
    {runs : List (JobRun α ε σ)} (hmax : 1 ≤ maxp)
    (rest : List (JobRun α ε σ)) :
    ∀ (pid t : Nat) (st : SchedState α ε σ),
    Inv fwd maxp runs pid st → rest = runs.drop pid → pid ≤ runs.length →
    ((∃ t' st', fill fwd maxp oracle t pid rest st = .toDrain t' st' ∧
        Inv fwd maxp runs runs.length st') ∨
     (∃ e st', fill fwd maxp oracle t pid rest st = .terminal (.raised e st') ∧
        fwd = true ∧ RaisedInfo runs e st' ∧ (st'.maxActive : Int) ≤ maxp)) := by
  induction rest with
  | nil =>
    intro pid t st hInv hrest hple
    have hlen : runs.length ≤ pid := List.drop_eq_nil_iff.mp hrest.symm
    have hpid : pid = runs.length := Nat.le_antisymm hple hlen
    subst hpid
    exact Or.inl ⟨t, st, rfl, hInv⟩
  | cons run rest' ih =>
    intro pid t st hInv hrest hple
    have hpidlt : pid < runs.length := by
      by_contra hcon
      rw [List.drop_eq_nil_of_le (Nat.le_of_not_lt hcon)] at hrest
      exact List.noConfusion hrest
    have hsplit2 : runs.drop pid = runs[pid] :: runs.drop (pid + 1) :=
      List.drop_eq_getElem_cons hpidlt
    rw [hsplit2] at hrest
    have hhead : run = runs[pid] := (List.cons.injEq _ _ _ _ ▸ hrest).1
    have htail : rest' = runs.drop (pid + 1) := (List.cons.injEq _ _ _ _ ▸ hrest).2
    rw [fill]
    by_cases hguard : (st.processes.length : Int) ≥ maxp
    · rw [if_pos hguard]
      have hne : st.processes ≠ [] := by
        intro hcon
        rw [hcon] at hguard
        simp at hguard
        omega
      rcases collect_step hInv (oracle t) hne with
        ⟨st2, hcol, hInv2, hlen2, _, hmaxA2⟩ |
        ⟨e, st2, hcol, hfwd, hmaxA2, hproc2, hinfo, hterm⟩
      · rw [hcol]
        have hroom2 : 1 ≤ maxp → (st2.processes.length : Int) + 1 ≤ maxp := by
          intro h1p
          have hl := (hInv.maxA h1p).2
          omega
        have hInv3 := spawn_step hInv2 hpidlt hroom2
        rw [hhead]
        exact ih (pid + 1) (t + 1) (new_process runs[pid] pid st2) hInv3 htail hpidlt
      · rw [hcol]
        refine Or.inr ⟨e, st2, rfl, hfwd, ?_, by rw [hmaxA2]; exact (hInv.maxA hmax).1⟩
        obtain ⟨i, hilen, hipid, ⟨exc, tb, hrun, herr⟩, hby, himem⟩ := hinfo
        exact ⟨⟨i, hilen, exc, tb, hrun, herr, hby, himem⟩, hterm⟩
    · rw [if_neg hguard]
      have hroom2 : 1 ≤ maxp → (st.processes.length : Int) + 1 ≤ maxp := by
        intro _
        omega
      have hInv3 := spawn_step hInv hpidlt hroom2
      rw [hhead]
      exact ih (pid + 1) t (new_process runs[pid] pid st) hInv3 htail hpidlt

/-- Master lemma for the drain loop under a positive limit: starting from an
    invariant state with every job submitted and fuel equal to the number of
    active workers, the loop either returns the accumulated results with an
    empty active set, or stops on a re-raised worker failure. -/
theorem drain_master {fwd : Bool} {maxp : Int} (oracle : Nat → Nat)
    {runs : List (JobRun α ε σ)} (hmax : 1 ≤ maxp) (fuel : Nat) :
    ∀ (t : Nat) (st : SchedState α ε σ),
    Inv fwd maxp runs runs.length st → fuel = st.processes.length →
    ((∃ st', drainLoop fwd oracle t fuel st = .ok st'.results st' ∧
        Inv fwd maxp runs runs.length st' ∧ st'.processes = []) ∨
     (∃ e st', drainLoop fwd oracle t fuel st = .raised e st' ∧
        fwd = true ∧ RaisedInfo runs e st' ∧ (st'.maxActive : Int) ≤ maxp)) := by
  induction fuel with
  | zero =>
    intro t st hInv hfuel
    have hempty : st.processes = [] := List.length_eq_zero.mp hfuel.symm
    left
    refine ⟨st, ?_, hInv, hempty⟩
    rw [drainLoop, if_neg (by rw [hempty]; simp)]
  | succ n ih =>
    intro t st hInv hfuel
    have hpos : st.processes.length > 0 := by omega
    have hne : st.processes ≠ [] := by
      intro hcon
      rw [hcon] at hpos
      simp at hpos
    rw [drainLoop, if_pos hpos]
    rcases collect_step hInv (oracle t) hne with
      ⟨st2, hcol, hInv2, hlen2, _, hmaxA2⟩ |
      ⟨e, st2, hcol, hfwd, hmaxA2, hproc2, hinfo, hterm⟩
    · rw [hcol]
      exact ih (t + 1) st2 hInv2 (by omega)
    · rw [hcol]
      refine Or.inr ⟨e, st2, rfl, hfwd, ?_, by rw [hmaxA2]; exact (hInv.maxA hmax).1⟩
      obtain ⟨i, hilen, hipid, ⟨exc, tb, hrun, herr⟩, hby, himem⟩ := hinfo
      exact ⟨⟨i, hilen, exc, tb, hrun, herr, hby, himem⟩, hterm⟩

theorem okVals_length_le (runs : List (JobRun α ε σ)) :
    (okVals runs).length ≤ runs.length :=
  List.length_filterMap_le _ _

theorem okVals_length_of_allOk {runs : List (JobRun α ε σ)}
    (h : ∀ r ∈ runs, r.isOk = true) : (okVals runs).length = runs.length := by
  induction runs with
  | nil => rfl
  | cons r rest ih =>
    have hr := h r (List.mem_cons_self r rest)
    cases r with
    | ok v =>
      have : okVals (Except.ok v :: rest) = v :: okVals rest := by
        simp [okVals, Except.toOption]
      rw [this, List.length_cons, List.length_cons,
        ih (fun x hx => h x (List.mem_cons_of_mem _ hx))]
    | error q => exact Bool.noConfusion hr

theorem okVals_length_lt {runs : List (JobRun α ε σ)}
    (h : ∃ r ∈ runs, r.isOk = false) : (okVals runs).length < runs.length := by
  induction runs with
  | nil =>
    obtain ⟨r, hmem, _⟩ := h
    exact absurd hmem (List.not_mem_nil r)
  | cons r rest ih =>
    obtain ⟨r2, hmem, herr⟩ := h
    rcases List.mem_cons.mp hmem with hh | hh
    · subst hh
      cases r2 with
      | ok v => exact Bool.noConfusion herr
      | error q =>
        have : okVals (Except.error q :: rest) = okVals rest := by
          simp [okVals, Except.toOption]
        rw [this, List.length_cons]
        exact Nat.lt_succ_of_le (okVals_length_le rest)
    · have hlt := ih ⟨r2, hh, herr⟩
      cases r with
      | ok v =>
        have : okVals (Except.ok v :: rest) = v :: okVals rest := by
          simp [okVals, Except.toOption]
        rw [this, List.length_cons, List.length_cons]
        omega
      | error q =>
        have : okVals (Except.error q :: rest) = okVals rest := by
          simp [okVals, Except.toOption]
        rw [this, List.length_cons]
        omega

theorem okVals_of_allOk {runs : List (JobRun α ε σ)}
    (h : ∀ r ∈ runs, r.isOk = true) :
    runs.map (fun r => r.toOption) = (okVals runs).map some := by
  induction runs with
  | nil => rfl
  | cons r rest ih =>
    have hr := h r (List.mem_cons_self r rest)
    cases r with
    | ok v =>
      have h2 : okVals (Except.ok v :: rest) = v :: okVals rest := by
        simp [okVals, Except.toOption]
      rw [h2, List.map_cons, List.map_cons,
        ih (fun x hx => h x (List.mem_cons_of_mem _ hx))]
      rfl
    | error q => exact Bool.noConfusion hr

/-- `schedule_workers` on the empty job sequence returns `[]` at once, with
    the entry state untouched: no worker is ever spawned. -/
theorem sched_empty (fwd : Bool) (maxp : Int) (oracle : Nat → Nat) :
    schedule_workers fwd maxp oracle ([] : List (JobRun α ε σ)) =
      .ok [] initState := rfl

/-- With a nonpositive limit and a nonempty job sequence, the first window
    check fires immediately and `collect_result` blocks forever on the empty
    queue: the call deadlocks on the untouched entry state, before any
    worker is spawned and without raising anything. -/
theorem sched_nonpos (fwd : Bool) (maxp : Int) (oracle : Nat → Nat)
    (run : JobRun α ε σ) (rest : List (JobRun α ε σ)) (hmax : maxp ≤ 0) :
    schedule_workers fwd maxp oracle (run :: rest) = .deadlock initState := by
  have hcol : collect_result fwd (oracle 0) (initState : SchedState α ε σ) =
      .blocked initState := by
    rw [collect_result]
    simp [initState]
  have hguard : ((initState : SchedState α ε σ).processes.length : Int) ≥ maxp := by
    simp [initState]
    omega
  unfold schedule_workers
  rw [fill, if_pos hguard, hcol]

/-- Characterization of the returning runs: under a positive limit, if no
    failure can be re-raised (either masking is on or every job succeeds),
    the call returns, the active set drains completely, and the returned
    list is a permutation of the submitted jobs' success values. -/
theorem sched_ok {fwd : Bool} {maxp : Int} (oracle : Nat → Nat)
    {runs : List (JobRun α ε σ)} (hmax : 1 ≤ maxp)
    (hnoraise : fwd = true → ∀ r ∈ runs, r.isOk = true) :
    ∃ st', schedule_workers fwd maxp oracle runs = .ok st'.results st' ∧
      List.Perm st'.results (okVals runs) ∧ (st'.maxActive : Int) ≤ maxp ∧
      st'.processes = [] := by
  have hnoinfo : ∀ e st', fwd = true → RaisedInfo runs e st' → False := by
    intro e st' hfwd hinfo
    obtain ⟨⟨i, hilen, exc, tb, hrun, _⟩, _⟩ := hinfo
    have hmem : runs[i] ∈ runs := List.getElem_mem hilen
    have := hnoraise hfwd runs[i] hmem
    rw [hrun] at this
    exact Bool.noConfusion this
  rcases fill_master oracle hmax runs 0 0 initState (Inv_init fwd maxp runs) rfl
      (Nat.zero_le _) with
    ⟨t', st', hfill, hInv'⟩ | ⟨e, st', hfill, hfwd, hinfo, _⟩
  · rcases drain_master oracle hmax st'.processes.length t' st' hInv' rfl with
      ⟨st2, hdrain, hInv2, hempty⟩ | ⟨e, st2, hdrain, hfwd, hinfo, _⟩
    · refine ⟨st2, ?_, ?_, (hInv2.maxA hmax).1, hempty⟩
      · unfold schedule_workers
        rw [hfill]
        exact hdrain
      · have hqnil : st2.queue = [] := by
          have hq := hInv2.perm
          rw [hempty] at hq
          have := hq.eq_nil
          unfold queuePids at this
          exact List.map_eq_nil_iff.mp this
        have hacct := hInv2.acct
        rw [hqnil, List.take_length] at hacct
        simpa using hacct
    · exact absurd hinfo (fun h => hnoinfo e st2 hfwd h)
  · exact absurd hinfo (fun h => hnoinfo e st' hfwd h)

/-- Characterization of the raising runs: under a positive limit with
    forwarding on and at least one failing job, the call re-raises a failing
    job's exception. -/
theorem sched_raised {maxp : Int} (oracle : Nat → Nat)
    {runs : List (JobRun α ε σ)} (hmax : 1 ≤ maxp)
    (hfail : ∃ r ∈ runs, r.isOk = false) :
    ∃ e st', schedule_workers true maxp oracle runs = .raised e st' ∧
      RaisedInfo runs e st' ∧ (st'.maxActive : Int) ≤ maxp := by
  rcases fill_master oracle hmax runs 0 0 initState (Inv_init true maxp runs) rfl
      (Nat.zero_le _) with
    ⟨t', st', hfill, hInv'⟩ | ⟨e, st', hfill, _, hinfo, hmaxA⟩
  · rcases drain_master oracle hmax st'.processes.length t' st' hInv' rfl with
      ⟨st2, hdrain, hInv2, hempty⟩ | ⟨e, st2, hdrain, _, hinfo, hmaxA⟩
    · exfalso
      obtain ⟨r, hmem, herr⟩ := hfail
      obtain ⟨i, hilen, hget⟩ := List.getElem_of_mem hmem
      have herr2 : (runs[i]).isOk = false := by rw [hget]; exact herr
      obtain ⟨env, henvmem, _⟩ := hInv2.fails rfl i hilen hilen herr2
      have hqnil : st2.queue = [] := by
        have hq := hInv2.perm
        rw [hempty] at hq
        have := hq.eq_nil
        unfold queuePids at this
        exact List.map_eq_nil_iff.mp this
      rw [hqnil] at henvmem
      exact List.not_mem_nil env henvmem
    · refine ⟨e, st2, ?_, hinfo, hmaxA⟩
      unfold schedule_workers
      rw [hfill]
      exact hdrain
  · refine ⟨e, st', ?_, hinfo, hmaxA⟩
    unfold schedule_workers
    rw [hfill]

/-- Submission loop at limit 1: with exactly the last-spawned worker active
    and its envelope pending, each further job first waits for that worker
    (the window check fires at once), collects its result in order, then
    spawns the next worker.  Results accumulate in submission order. -/
theorem fill_one {fwd : Bool} (oracle : Nat → Nat) (rest : List (JobRun α ε σ)) :
    ∀ (j : JobRun α ε σ) (p t : Nat) (rs : List α) (sc : Nat) (tm : List Nat)
      (ma : Nat) (rb : Option Nat),
    (∀ r ∈ j :: rest, r.isOk = true) →
    ∃ sc2 tm2 ma2 rb2,
      fill fwd 1 oracle t (p + 1) rest
          (⟨[p], [proc_f j p], rs, sc, tm, ma, rb⟩ : SchedState α ε σ) =
        .toDrain (t + rest.length)
          ⟨[p + rest.length],
            [proc_f ((j :: rest).getLast (List.cons_ne_nil j rest)) (p + rest.length)],
            rs ++ okVals ((j :: rest).dropLast), sc2, tm2, ma2, rb2⟩ := by
  induction rest with
  | nil =>
    intro j p t rs sc tm ma rb hok
    refine ⟨sc, tm, ma, rb, ?_⟩
    rw [fill]
    simp [okVals]
  | cons j2 rest' ih =>
    intro j p t rs sc tm ma rb hok
    obtain ⟨v, hj⟩ : ∃ v, j = .ok v := by
      have hj0 := hok j (List.mem_cons_self _ _)
      cases j with
      | ok v => exact ⟨v, rfl⟩
      | error q => exact Bool.noConfusion hj0
    subst hj
    rw [fill, if_pos (by simp)]
    have hcol : collect_result fwd (oracle t)
        (⟨[p], [proc_f (Except.ok v) p], rs, sc, tm, ma, rb⟩ : SchedState α ε σ) =
        .cont ⟨[], [], rs ++ [v], sc, tm ++ [p], ma, rb⟩ := by
      simp [collect_result, Nat.mod_one, collectEnv, proc_f, finishPid]
    rw [hcol]
    dsimp only
    have hnp : new_process j2 (p + 1)
        (⟨[], [], rs ++ [v], sc, tm ++ [p], ma, rb⟩ : SchedState α ε σ) =
        ⟨[p + 1], [proc_f j2 (p + 1)], rs ++ [v], sc + 1, tm ++ [p], max ma 1, rb⟩ := by
      simp [new_process]
    rw [hnp]
    obtain ⟨sc2, tm2, ma2, rb2, hih⟩ := ih j2 (p + 1) (t + 1) (rs ++ [v]) (sc + 1)
      (tm ++ [p]) (max ma 1) rb (fun r hr => hok r (List.mem_cons_of_mem _ hr))
    refine ⟨sc2, tm2, ma2, rb2, ?_⟩
    rw [hih]
    have hlen : t + 1 + rest'.length = t + (j2 :: rest').length := by
      rw [List.length_cons]; omega
    have hp2 : p + 1 + rest'.length = p + (j2 :: rest').length := by
      rw [List.length_cons]; omega
    have hgl : (j2 :: rest').getLast (List.cons_ne_nil j2 rest') =
        (Except.ok v :: j2 :: rest').getLast (List.cons_ne_nil _ _) :=
      (List.getLast_cons (List.cons_ne_nil j2 rest')).symm
    have hdl : (rs ++ [v]) ++ okVals ((j2 :: rest').dropLast) =
        rs ++ okVals ((Except.ok v :: j2 :: rest').dropLast) := by
      rw [List.dropLast_cons₂]
      have : okVals (Except.ok v :: (j2 :: rest').dropLast) =
          v :: okVals ((j2 :: rest').dropLast) := by
        simp [okVals, Except.toOption]
      rw [this, List.append_assoc]
      rfl
    rw [hlen, hp2, hgl, hdl]

theorem drainLoop_step {fwd : Bool} {oracle : Nat → Nat} {t fuel : Nat}
    {st st2 : SchedState α ε σ} (hpos : st.processes.length > 0)
    (hcol : collect_result fwd (oracle t) st = .cont st2) :
    drainLoop fwd oracle t (fuel + 1) st = drainLoop fwd oracle (t + 1) fuel st2 := by
  rw [drainLoop, if_pos hpos, hcol]

theorem drainLoop_done {fwd : Bool} {oracle : Nat → Nat} {t fuel : Nat}
    {st : SchedState α ε σ} (h : st.processes.length = 0) :
    drainLoop fwd oracle t fuel st = .ok st.results st := by
  cases fuel with
  | zero => rw [drainLoop, if_neg (by omega)]
  | succ n => rw [drainLoop, if_neg (by omega)]

/-- At limit 1, with every job succeeding, `schedule_workers` returns the
    success values in submission order, whatever the oracle resolves. -/
theorem sched_serial {fwd : Bool} (oracle : Nat → Nat)
    {runs : List (JobRun α ε σ)} (hok : ∀ r ∈ runs, r.isOk = true) :
    ∃ st', schedule_workers fwd 1 oracle runs = .ok (okVals runs) st' := by
  cases runs with
  | nil => exact ⟨initState, by rw [sched_empty]; rfl⟩
  | cons j rest =>
    unfold schedule_workers
    rw [fill, if_neg (by simp [initState])]
    have hnp : new_process j 0 (initState : SchedState α ε σ) =
        ⟨[0], [proc_f j 0], [], 1, [], 1, none⟩ := by
      simp [new_process, initState]
    rw [hnp]
    obtain ⟨sc2, tm2, ma2, rb2, hfill1⟩ := fill_one oracle rest j 0 0 [] 1 [] 1 none hok
    rw [hfill1]
    obtain ⟨vl, hvl⟩ : ∃ vl, (j :: rest).getLast (List.cons_ne_nil j rest) = .ok vl := by
      have hmem := List.getLast_mem (List.cons_ne_nil j rest)
      have hok2 := hok _ hmem
      cases hgl : (j :: rest).getLast (List.cons_ne_nil j rest) with
      | ok v => exact ⟨v, rfl⟩
      | error q => rw [hgl] at hok2; exact Bool.noConfusion hok2
    dsimp only
    have hcol : collect_result fwd (oracle (0 + rest.length))
        (⟨[0 + rest.length],
          [proc_f ((j :: rest).getLast (List.cons_ne_nil j rest)) (0 + rest.length)],
          [] ++ okVals ((j :: rest).dropLast), sc2, tm2, ma2, rb2⟩ : SchedState α ε σ) =
        .cont ⟨[], [], ([] ++ okVals ((j :: rest).dropLast)) ++ [vl], sc2,
          tm2 ++ [0 + rest.length], ma2, rb2⟩ := by
      rw [hvl]
      simp [collect_result, Nat.mod_one, collectEnv, proc_f, finishPid]
    rw [show (([0 + rest.length] : List Nat)).length = 0 + 1 from rfl]
    rw [drainLoop_step (by simp) hcol]
    rw [drainLoop_done (by simp)]
    have hres : ([] ++ okVals ((j :: rest).dropLast)) ++ [vl] = okVals (j :: rest) := by
      rw [List.nil_append]
      have h1 : okVals [(j :: rest).getLast (List.cons_ne_nil j rest)] = [vl] := by
        rw [hvl]; simp [okVals, Except.toOption]
      rw [← h1]
      unfold okVals
      rw [← List.filterMap_append, List.dropLast_append_getLast (List.cons_ne_nil j rest)]
    rw [hres]
    exact ⟨_, rfl⟩

theorem okVals_nil_of_allFail {runs : List (JobRun α ε σ)}
    (h : ∀ r ∈ runs, r.isOk = false) : okVals runs = [] := by
  induction runs with
  | nil => rfl
  | cons r rest ih =>
    have hr := h r (List.mem_cons_self r rest)
    cases r with
    | ok v => exact Bool.noConfusion hr
    | error q =>
      have : okVals (Except.error q :: rest) = okVals rest := by
        simp [okVals, Except.toOption]
      rw [this]
      exact ih (fun x hx => h x (List.mem_cons_of_mem _ hx))

/-- A job outcome used by the concrete witness runs: return the number. -/
def okRun (n : Nat) : JobRun Nat String String := .ok n

/-- A job outcome used by the concrete witness runs: raise
    `CrashError("ouch")`, whose rendered stack trace is `"trace"`. -/
def crashRun : JobRun Nat String String :=
  .error ({ val := "CrashError", args := ["ouch"] }, "trace")

/-- C1: for every concurrency limit ≥ 1 and every finite job sequence, if no
    job's function raises, `schedule_workers` returns a list with exactly one
    success payload per submitted job (its length equals the number of
    submitted jobs, and it is a permutation of the jobs' values); for the
    empty job sequence it returns `[]` and never spawns a worker.  This holds
    for every completion order and either forwarding mode. -/
theorem claim1_success_count {α ε σ : Type} (fwd : Bool) (maxp : Int)
    (oracle : Nat → Nat) (runs : List (JobRun α ε σ)) (hmax : 1 ≤ maxp)
    (hok : ∀ r ∈ runs, r.isOk = true) :
    ∃ rs st, schedule_workers fwd maxp oracle runs = .ok rs st ∧
      rs.length = runs.length ∧ List.Perm rs (okVals runs) ∧
      (runs = [] → rs = [] ∧ st.spawnCount = 0) := by
  obtain ⟨st, heq, hperm, _, _⟩ := sched_ok oracle hmax (fun _ => hok)
  refine ⟨st.results, st, heq, ?_, hperm, ?_⟩
  · rw [hperm.length_eq, okVals_length_of_allOk hok]
  · intro hnil
    subst hnil
    have h2 := (sched_empty fwd maxp oracle (α := α) (ε := ε) (σ := σ)).symm.trans heq
    injection h2 with h3 h4
    exact ⟨h3.symm, by rw [← h4]; rfl⟩

/-- C1 witness: two succeeding jobs at limit 2 under the FIFO order. -/
theorem claim1_success_count_witness :
    ∃ rs st, schedule_workers true 2 (fun _ => 0) [okRun 5, okRun 7] = .ok rs st ∧
      rs.length = ([okRun 5, okRun 7] : List (JobRun Nat String String)).length ∧
      List.Perm rs (okVals [okRun 5, okRun 7]) ∧
      (([okRun 5, okRun 7] : List (JobRun Nat String String)) = [] →
        rs = [] ∧ st.spawnCount = 0) :=
  claim1_success_count true 2 (fun _ => 0) [okRun 5, okRun 7] (by norm_num)
    (by intro r hr; fin_cases hr <;> rfl)

/-- C2: with forwarding on and a positive limit, if some job's function
    raises, the call raises instead of returning a list: the propagated
    error is a failing job's exception re-hydrated from its envelope, with
    that job's rendered stack-trace text appended to the error's argument
    tuple; the single `raised` outcome surfaces exactly one failure. -/
theorem claim2_forward_raises {α ε σ : Type} (maxp : Int) (oracle : Nat → Nat)
    (runs : List (JobRun α ε σ)) (hmax : 1 ≤ maxp)
    (hfail : ∃ r ∈ runs, r.isOk = false) :
    ∃ e st, schedule_workers true maxp oracle runs = .raised e st ∧
      ∃ i, ∃ h : i < runs.length, ∃ exc tb,
        runs[i] = Except.error (exc, tb) ∧
        e = { val := exc.val, args := exc.args ++ [tb] } := by
  obtain ⟨e, st, heq, ⟨⟨i, hi, exc, tb, hrun, herr, _, _⟩, _⟩, _⟩ :=
    sched_raised oracle hmax hfail
  exact ⟨e, st, heq, i, hi, exc, tb, hrun, herr⟩

/-- C2 witness: one succeeding and one crashing job at limit 2. -/
theorem claim2_forward_raises_witness :
    ∃ e st, schedule_workers true 2 (fun _ => 0) [okRun 5, crashRun] = .raised e st ∧
      ∃ i, ∃ h : i < ([okRun 5, crashRun] : List (JobRun Nat String String)).length,
        ∃ exc tb, ([okRun 5, crashRun] : List (JobRun Nat String String))[i] =
          Except.error (exc, tb) ∧
        e = { val := exc.val, args := exc.args ++ [tb] } :=
  claim2_forward_raises 2 (fun _ => 0) [okRun 5, crashRun] (by norm_num)
    ⟨crashRun, by simp [crashRun], rfl⟩

/-- C3 counterexample: one crashing job at limit 1 with forwarding on.  The
    claim says the scheduler terminates every *other* worker — never the
    reporter — and joins and removes the reporter's handle before surfacing
    the error.  The computed final state refutes both parts: the reporter is
    pid 0, and the call ends with `terminated = [0]` (the reporter's handle
    received the `terminate()` call, issued by the loop over the whole
    `processes` dict) and `processes = [0]` (the reporter was never joined
    nor removed: `raise` fires before the join/del epilogue). -/
theorem claim3_counterexample :
    schedule_workers true 1 (fun _ => 0) [crashRun] =
      .raised { val := "CrashError", args := ["ouch", "trace"] }
        ⟨[0], [], [], 1, [0], 1, some 0⟩ := rfl

/-- C3 amended: when a failure envelope is observed under forwarding, the
    scheduler requests termination of every handle in the active map — the
    reporter's included — and does not join or remove the reporter's handle:
    the reporter is still in the active set when the error surfaces. -/
theorem claim3_amended {α ε σ : Type} (fwd : Bool) (maxp : Int)
    (oracle : Nat → Nat) (runs : List (JobRun α ε σ)) (e : PyExc ε σ)
    (st : SchedState α ε σ)
    (heq : schedule_workers fwd maxp oracle runs = .raised e st) :
    ∃ p, st.raisedBy = some p ∧ p ∈ st.processes ∧ p ∈ st.terminated ∧
      ∀ q ∈ st.processes, q ∈ st.terminated := by
  rcases le_or_lt maxp 0 with hmax | hmax
  · cases runs with
    | nil =>
      rw [sched_empty] at heq
      exact SchedResult.noConfusion heq
    | cons r rest =>
      rw [sched_nonpos fwd maxp oracle r rest hmax] at heq
      exact SchedResult.noConfusion heq
  · have hmax1 : 1 ≤ maxp := hmax
    by_cases hfail : ∃ r ∈ runs, r.isOk = false
    · cases fwd with
      | false =>
        obtain ⟨st2, heq2, _, _, _⟩ :=
          @sched_ok α ε σ false maxp oracle runs hmax1 (fun h => nomatch h)
        rw [heq2] at heq
        exact SchedResult.noConfusion heq
      | true =>
        obtain ⟨e2, st2, heq2, ⟨⟨i, hi, exc, tb, hrun, herr, hby, himem⟩, hterm⟩, _⟩ :=
          sched_raised oracle hmax1 hfail
        rw [heq2] at heq
        injection heq with h3 h4
        subst h3
        subst h4
        exact ⟨i, hby, himem, hterm i himem, hterm⟩
    · have hok : ∀ r ∈ runs, r.isOk = true := by
        intro r hr
        cases hb : r.isOk with
        | true => rfl
        | false => exact absurd ⟨r, hr, hb⟩ hfail
      obtain ⟨st2, heq2, _, _, _⟩ := sched_ok oracle hmax1 (fun _ => hok)
      rw [heq2] at heq
      exact SchedResult.noConfusion heq

/-- C3 amended witness: the single crashing job at limit 1. -/
theorem claim3_amended_witness :
    ∃ p, (⟨[0], [], [], 1, [0], 1, some 0⟩ : SchedState Nat String String).raisedBy =
        some p ∧
      p ∈ (⟨[0], [], [], 1, [0], 1, some 0⟩ : SchedState Nat String String).processes ∧
      p ∈ (⟨[0], [], [], 1, [0], 1, some 0⟩ : SchedState Nat String String).terminated ∧
      ∀ q ∈ (⟨[0], [], [], 1, [0], 1, some 0⟩ : SchedState Nat String String).processes,
        q ∈ (⟨[0], [], [], 1, [0], 1, some 0⟩ : SchedState Nat String String).terminated :=
  claim3_amended true 1 (fun _ => 0) [crashRun]
    { val := "CrashError", args := ["ouch", "trace"] }
    ⟨[0], [], [], 1, [0], 1, some 0⟩ rfl

/-- C4 counterexample: limit 0 with one (succeeding) job.  The claim says an
    invalid limit fails fast with a configuration error; instead the very
    first window check fires on the empty dict, `collect_result` blocks
    forever on the empty result channel, and the call deadlocks on the
    untouched entry state — no error is raised (and no worker was spawned:
    `spawnCount = 0`). -/
theorem claim4_counterexample :
    schedule_workers true 0 (fun _ => 0) [okRun 5] =
      .deadlock (initState : SchedState Nat String String) := rfl

/-- C4 amended: `schedule_workers` performs no validation of the concurrency
    limit.  With a limit ≤ 0 and a nonempty job sequence it blocks forever
    inside the first `results_q.get()` — before any worker is spawned — and
    never raises any configuration error; the final state is the untouched
    entry state. -/
theorem claim4_amended {α ε σ : Type} (fwd : Bool) (maxp : Int)
    (oracle : Nat → Nat) (runs : List (JobRun α ε σ)) (hmax : maxp ≤ 0)
    (hne : runs ≠ []) :
    schedule_workers fwd maxp oracle runs = .deadlock initState ∧
    (initState : SchedState α ε σ).spawnCount = 0 := by
  cases runs with
  | nil => exact absurd rfl hne
  | cons r rest => exact ⟨sched_nonpos fwd maxp oracle r rest hmax, rfl⟩

/-- C4 amended witness: limit -2 with two jobs. -/
theorem claim4_amended_witness :
    schedule_workers true (-2) (fun _ => 0) [okRun 1, okRun 2] =
      .deadlock initState ∧
    (initState : SchedState Nat String String).spawnCount = 0 :=
  claim4_amended true (-2) (fun _ => 0) [okRun 1, okRun 2] (by norm_num)
    (List.cons_ne_nil _ _)

/-- C5: at concurrency limit 1 with no failures, the returned list is in
    submission order — it is exactly the in-order extraction of the jobs'
    success values (`okVals`), so the i-th element is the i-th job's value:
    mapping each job outcome to its optional value equals the returned list
    wrapped in `some`, position by position.  This holds for every oracle,
    since a single worker is ever active. -/
theorem claim5_serial_order {α ε σ : Type} (fwd : Bool) (oracle : Nat → Nat)
    (runs : List (JobRun α ε σ)) (hok : ∀ r ∈ runs, r.isOk = true) :
    ∃ st, schedule_workers fwd 1 oracle runs = .ok (okVals runs) st ∧
      runs.map (fun r => r.toOption) = (okVals runs).map some := by
  obtain ⟨st, heq⟩ := sched_serial oracle hok
  exact ⟨st, heq, okVals_of_allOk hok⟩

/-- C5 witness: three succeeding jobs at limit 1 under a scrambling oracle. -/
theorem claim5_serial_order_witness :
    ∃ st, schedule_workers true 1 (fun t => 17 * t + 3) [okRun 4, okRun 5, okRun 6] =
      .ok (okVals [okRun 4, okRun 5, okRun 6]) st ∧
      ([okRun 4, okRun 5, okRun 6] : List (JobRun Nat String String)).map
          (fun r => r.toOption) =
        (okVals [okRun 4, okRun 5, okRun 6]).map some :=
  claim5_serial_order true (fun t => 17 * t + 3) [okRun 4, okRun 5, okRun 6]
    (by intro r hr; fin_cases hr <;> rfl)

/-- C6: with forwarding off and a positive limit, even when some jobs'
    functions raise, the call returns normally; each failed job contributes
    no entry (the returned list is a permutation of the successes only, so
    strictly shorter than the job count), and if every job raises the
    returned list is empty. -/
theorem claim6_masking {α ε σ : Type} (maxp : Int) (oracle : Nat → Nat)
    (runs : List (JobRun α ε σ)) (hmax : 1 ≤ maxp)
    (hfail : ∃ r ∈ runs, r.isOk = false) :
    ∃ rs st, schedule_workers false maxp oracle runs = .ok rs st ∧
      List.Perm rs (okVals runs) ∧ rs.length < runs.length ∧
      ((∀ r ∈ runs, r.isOk = false) → rs = []) := by
  obtain ⟨st, heq, hperm, _, _⟩ :=
    @sched_ok α ε σ false maxp oracle runs hmax (fun h => nomatch h)
  refine ⟨st.results, st, heq, hperm, ?_, ?_⟩
  · rw [hperm.length_eq]
    exact okVals_length_lt hfail
  · intro hall
    have hnil : okVals runs = [] := okVals_nil_of_allFail hall
    rw [hnil] at hperm
    exact hperm.eq_nil

/-- C6 witness: two crashing jobs and one success, masked, limit 2. -/
theorem claim6_masking_witness :
    ∃ rs st, schedule_workers false 2 (fun _ => 0) [crashRun, okRun 9, crashRun] =
      .ok rs st ∧
      List.Perm rs (okVals [crashRun, okRun 9, crashRun]) ∧
      rs.length < ([crashRun, okRun 9, crashRun] : List (JobRun Nat String String)).length ∧
      ((∀ r ∈ ([crashRun, okRun 9, crashRun] : List (JobRun Nat String String)),
          r.isOk = false) → rs = []) :=
  claim6_masking 2 (fun _ => 0) [crashRun, okRun 9, crashRun] (by norm_num)
    ⟨crashRun, by simp [crashRun], rfl⟩

/-- C7: with a positive limit, the number of active worker handles never
    exceeds the limit at any step: the ghost field `maxActive` records the
    largest `len(processes)` ever reached (updated at each spawn, the only
    point where the count grows), and in the final state of every outcome it
    is at most the limit. -/
theorem claim7_window_bound {α ε σ : Type} (fwd : Bool) (maxp : Int)
    (oracle : Nat → Nat) (runs : List (JobRun α ε σ)) (hmax : 1 ≤ maxp) :
    (((schedule_workers fwd maxp oracle runs).final.maxActive : Int)) ≤ maxp := by
  by_cases hfail : ∃ r ∈ runs, r.isOk = false
  · cases fwd with
    | true =>
      obtain ⟨e, st, heq, _, hmaxA⟩ := sched_raised oracle hmax hfail
      rw [heq]
      exact hmaxA
    | false =>
      obtain ⟨st, heq, _, hmaxA, _⟩ :=
        @sched_ok α ε σ false maxp oracle runs hmax (fun h => nomatch h)
      rw [heq]
      exact hmaxA
  · have hok : ∀ r ∈ runs, r.isOk = true := by
      intro r hr
      cases hb : r.isOk with
      | true => rfl
      | false => exact absurd ⟨r, hr, hb⟩ hfail
    obtain ⟨st, heq, _, hmaxA, _⟩ := sched_ok oracle hmax (fun _ => hok)
    rw [heq]
    exact hmaxA

/-- C7 witness: four jobs at limit 2, scrambled completion order. -/
theorem claim7_window_bound_witness :
    (((schedule_workers true 2 (fun t => t + 1)
        [okRun 1, crashRun, okRun 2, okRun 3]).final.maxActive : Int)) ≤ 2 :=
  claim7_window_bound true 2 (fun t => t + 1) [okRun 1, crashRun, okRun 2, okRun 3]
    (by norm_num)

/-- C8: for every function outcome and job identifier, `_proc_f` delivers
    exactly one envelope — `proc_f` is total and the `finally` block makes
    the delivery unconditional — carrying the job's identifier; on normal
    return it carries the return value and no failure payload, on a raised
    error it carries the `[e, stacktrace]` pair and no success payload, and
    exactly one of the two payloads is present. -/
theorem claim8_envelope {α ε σ : Type} (run : JobRun α ε σ) (p : Nat) :
    (proc_f run p).pid = p ∧
    (proc_f run p).result = run.toOption ∧
    (proc_f run p).exception = failPayload run ∧
    (proc_f run p).exception.isSome = (proc_f run p).result.isNone := by
  refine ⟨proc_f_pid run p, proc_f_result run p, proc_f_exception run p, ?_⟩
  cases run with
  | ok v => rfl
  | error q => obtain ⟨e, t⟩ := q; rfl

/-- C9: the synchronous fallback backend (`FakeProcess`: `start()` runs the
    job inline, `terminate()`/`join()` are no-ops, envelopes are consumed in
    FIFO order) produces the same raise/return/deadlock outcome kind and the
    same multiset of returned success payloads as the isolated-process
    backend under every completion order, for the same jobs and
    configuration: switching backends never changes correctness, only the
    serialization of execution. -/
theorem claim9_fake_equiv {α ε σ : Type} (fwd : Bool) (maxp : Int)
    (oracle : Nat → Nat) (runs : List (JobRun α ε σ)) :
    (schedule_workers fwd maxp oracle runs).kind =
      (schedule_workers_fake fwd maxp runs).kind ∧
    (schedule_workers fwd maxp oracle runs).okMultiset =
      (schedule_workers_fake fwd maxp runs).okMultiset := by
  unfold schedule_workers_fake
  rcases le_or_lt maxp 0 with hmax | hmax
  · cases runs with
    | nil =>
      rw [sched_empty, sched_empty]
      exact ⟨rfl, rfl⟩
    | cons r rest =>
      rw [sched_nonpos fwd maxp oracle r rest hmax,
        sched_nonpos fwd maxp (fun _ => 0) r rest hmax]
      exact ⟨rfl, rfl⟩
  · have hmax1 : 1 ≤ maxp := hmax
    by_cases hfail : ∃ r ∈ runs, r.isOk = false
    · cases fwd with
      | true =>
        obtain ⟨e1, st1, heq1, _, _⟩ := sched_raised oracle hmax1 hfail
        obtain ⟨e2, st2, heq2, _, _⟩ := sched_raised (fun _ => 0) hmax1 hfail
        rw [heq1, heq2]
        exact ⟨rfl, rfl⟩
      | false =>
        obtain ⟨st1, heq1, hp1, _, _⟩ :=
          @sched_ok α ε σ false maxp oracle runs hmax1 (fun h => nomatch h)
        obtain ⟨st2, heq2, hp2, _, _⟩ :=
          @sched_ok α ε σ false maxp (fun _ => 0) runs hmax1 (fun h => nomatch h)
        rw [heq1, heq2]
        refine ⟨rfl, ?_⟩
        show some (st1.results : Multiset α) = some (st2.results : Multiset α)
        exact congrArg some (Multiset.coe_eq_coe.mpr (hp1.trans hp2.symm))
    · have hok : ∀ r ∈ runs, r.isOk = true := by
        intro r hr
        cases hb : r.isOk with
        | true => rfl
        | false => exact absurd ⟨r, hr, hb⟩ hfail
      obtain ⟨st1, heq1, hp1, _, _⟩ := sched_ok oracle hmax1 (fun _ => hok)
      obtain ⟨st2, heq2, hp2, _, _⟩ := sched_ok (fun _ => 0) hmax1 (fun _ => hok)
      rw [heq1, heq2]
      refine ⟨rfl, ?_⟩
      show some (st1.results : Multiset α) = some (st2.results : Multiset α)
      exact congrArg some (Multiset.coe_eq_coe.mpr (hp1.trans hp2.symm))

/-- C10: the `processes[result['pid']]` lookups and the deletion inside
    `collect_result` always succeed: the call never ends in the `KeyError`
    outcome, under any configuration, job list and completion order —
    every collected envelope's pid is a key of the active map at that
    moment, because pids are unique, each worker delivers one envelope, and
    a handle is removed only when its own envelope is collected. -/
theorem claim10_no_keyError {α ε σ : Type} (fwd : Bool) (maxp : Int)
    (oracle : Nat → Nat) (runs : List (JobRun α ε σ)) :
    (schedule_workers fwd maxp oracle runs).kind = SchedKind.ok ∨
    (schedule_workers fwd maxp oracle runs).kind = SchedKind.raised ∨
    (schedule_workers fwd maxp oracle runs).kind = SchedKind.deadlock := by
  rcases le_or_lt maxp 0 with hmax | hmax
  · cases runs with
    | nil =>
      rw [sched_empty]
      exact Or.inl rfl
    | cons r rest =>
      rw [sched_nonpos fwd maxp oracle r rest hmax]
      exact Or.inr (Or.inr rfl)
  · have hmax1 : 1 ≤ maxp := hmax
    by_cases hfail : ∃ r ∈ runs, r.isOk = false
    · cases fwd with
      | true =>
        obtain ⟨e, st, heq, _, _⟩ := sched_raised oracle hmax1 hfail
        rw [heq]
        exact Or.inr (Or.inl rfl)
      | false =>
        obtain ⟨st, heq, _, _, _⟩ :=
          @sched_ok α ε σ false maxp oracle runs hmax1 (fun h => nomatch h)
        rw [heq]
        exact Or.inl rfl
    · have hok : ∀ r ∈ runs, r.isOk = true := by
        intro r hr
        cases hb : r.isOk with
        | true => rfl
        | false => exact absurd ⟨r, hr, hb⟩ hfail
      obtain ⟨st, heq, _, _, _⟩ := sched_ok oracle hmax1 (fun _ => hok)
      rw [heq]
      exact Or.inl rfl

end MPScheduler
